import Mathlib

/-!
Verification of the election outcome engine of the
Proportional-Representation repository: the FPTP and D'Hondt PR seat
allocators, the result-sorting rule, the coalition search, the election
state machine, and the data-retrieval error behaviour.

Seat counts are modelled as `ℕ`, vote counts as `ℤ`, exact quotients as
`ℚ`.  Python dictionaries are modelled as ordered association lists
(`List (String × _)`), since Python dicts preserve insertion order and the
code relies on that order.
-/

/-! ### Stable descending sort

`sorted(xs, key=key, reverse=True)` in Python is the stable sort that
orders elements by decreasing key and keeps the original relative order of
elements with equal keys.  Those two properties determine the output
uniquely, so we model it by insertion sort: `insert_desc` walks past
strictly greater keys and places the new element in front of the first
element whose key is not greater, hence in front of all equal keys; in
`sorted_desc` elements are inserted from the right, so an element is
always inserted in front of the already-sorted elements that followed it
in the input, which is exactly stability. -/

def insert_desc {α : Type} (key : α → ℤ) (x : α) : List α → List α
  | [] => [x]
  | y :: ys => if key y ≤ key x then x :: y :: ys else y :: insert_desc key x ys

def sorted_desc {α : Type} (key : α → ℤ) : List α → List α
  | [] => []
  | x :: xs => insert_desc key x (sorted_desc key xs)

theorem insert_desc_perm {α : Type} (key : α → ℤ) (x : α) (l : List α) :
    (insert_desc key x l).Perm (x :: l) := by
  induction l with
  | nil => simp [insert_desc]
  | cons y ys ih =>
    by_cases h : key y ≤ key x
    · simp [insert_desc, h]
    · simp only [insert_desc, if_neg h]
      exact (ih.cons y).trans (List.Perm.swap x y ys)

theorem sorted_desc_perm {α : Type} (key : α → ℤ) (l : List α) :
    (sorted_desc key l).Perm l := by
  induction l with
  | nil => exact List.Perm.refl _
  | cons x xs ih =>
    exact (insert_desc_perm key x (sorted_desc key xs)).trans (ih.cons x)

theorem insert_desc_pairwise {α : Type} (key : α → ℤ) (x : α) (l : List α)
    (h : l.Pairwise (fun a b => key b ≤ key a)) :
    (insert_desc key x l).Pairwise (fun a b => key b ≤ key a) := by
  induction l with
  | nil => simp [insert_desc]
  | cons y ys ih =>
    rcases List.pairwise_cons.mp h with ⟨hy, hys⟩
    by_cases hle : key y ≤ key x
    · simp only [insert_desc, if_pos hle]
      refine List.pairwise_cons.mpr ⟨?_, h⟩
      intro b hb
      rcases List.mem_cons.mp hb with rfl | hb
      · exact hle
      · exact le_trans (hy b hb) hle
    · simp only [insert_desc, if_neg hle]
      refine List.pairwise_cons.mpr ⟨?_, ih hys⟩
      intro b hb
      have hb' := (insert_desc_perm key x ys).mem_iff.mp hb
      rcases List.mem_cons.mp hb' with rfl | hb'
      · exact le_of_lt (lt_of_not_le hle)
      · exact hy b hb'

theorem sorted_desc_pairwise {α : Type} (key : α → ℤ) (l : List α) :
    (sorted_desc key l).Pairwise (fun a b => key b ≤ key a) := by
  induction l with
  | nil => simp [sorted_desc]
  | cons x xs ih => exact insert_desc_pairwise key x _ ih

theorem insert_desc_filter {α : Type} (key : α → ℤ) (x : α) (l : List α)
    (k : ℤ) :
    (insert_desc key x l).filter (fun z => key z == k)
      = (x :: l).filter (fun z => key z == k) := by
  induction l with
  | nil => rfl
  | cons y ys ih =>
    by_cases hle : key y ≤ key x
    · simp [insert_desc, hle]
    · have hlt : key x < key y := lt_of_not_le hle
      simp only [insert_desc, if_neg hle]
      by_cases hyk : key y = k
      · have hxk : ¬ key x = k := by omega
        simp only [List.filter_cons]
        simp only [hyk, hxk, beq_iff_eq, if_pos rfl, if_neg hxk]
        simp only [List.filter_cons, beq_iff_eq, if_neg hxk] at ih
        simp [hyk, ih]
      · simp only [List.filter_cons, beq_iff_eq, if_neg hyk]
        simp only [List.filter_cons, beq_iff_eq] at ih ⊢
        exact ih

theorem sorted_desc_filter {α : Type} (key : α → ℤ) (l : List α) (k : ℤ) :
    (sorted_desc key l).filter (fun z => key z == k)
      = l.filter (fun z => key z == k) := by
  induction l with
  | nil => rfl
  | cons x xs ih =>
    rw [sorted_desc, insert_desc_filter]
    simp only [List.filter_cons, beq_iff_eq] at ih ⊢
    by_cases hx : key x = k <;> simp [hx, ih]

/-! ### `Election.sort_results` (src/elections/base_election.py)

The source sorts `results.items()` with
`key = lambda item: item[1] if item[0] != "Other" else -1` and
`reverse=True`, then rebuilds a dict (which keeps the sorted order). -/

def sort_parties (item : String × ℕ) : ℤ :=
  if item.1 ≠ "Other" then (item.2 : ℤ) else -1

def sort_results (results : List (String × ℕ)) : List (String × ℕ) :=
  sorted_desc sort_parties results

/-- C5: `sort_results` returns the same entries (a permutation), ordered by
descending key where the party "Other" is keyed as −1 (hence always last,
since every other key is a non-negative seat count), entries with equal
keys keeping their original relative order (stability, stated as
filter-preservation); and on the spec's example it yields the key order
["p3", "p1", "p2", "Other"]. -/
theorem c5_sort_results_characterisation (results : List (String × ℕ)) :
    (sort_results results).Perm results ∧
    (sort_results results).Pairwise
      (fun a b => sort_parties b ≤ sort_parties a) ∧
    (∀ k : ℤ, (sort_results results).filter (fun z => sort_parties z == k)
        = results.filter (fun z => sort_parties z == k)) ∧
    (sort_results [("p1", 2), ("p2", 1), ("p3", 4), ("Other", 7)]).map
        Prod.fst = ["p3", "p1", "p2", "Other"] := by
  refine ⟨sorted_desc_perm _ _, sorted_desc_pairwise _ _,
    fun k => sorted_desc_filter _ _ k, ?_⟩
  rfl

/-! ### Coalition search (src/elections/base_election.py)

`_calculate_coalitions` computes `total = sum(results.values())`,
`sorted_list = sorted([(seats, party) ...], key=x[0], reverse=True)`,
`seat_target = math.ceil((total + 1) / 2)` and runs the depth-first
recursion `_find_valid_coalitions_recursive`. -/

def seat_target (total : ℕ) : ℕ := Int.toNat ⌈((total : ℚ) + 1) / 2⌉

theorem seat_target_eq (total : ℕ) : seat_target total = (total + 2) / 2 := by
  set c := (total + 2) / 2 with hc
  have h1 : total + 1 ≤ 2 * c := by omega
  have h2 : 2 * c < total + 3 := by omega
  have hceil : ⌈((total : ℚ) + 1) / 2⌉ = (c : ℤ) := by
    rw [Int.ceil_eq_iff]
    constructor
    · rw [lt_div_iff₀ (by norm_num : (0:ℚ) < 2)]
      have h2q : (2 * c : ℚ) < (total : ℚ) + 3 := by exact_mod_cast h2
      push_cast
      linarith
    · rw [div_le_iff₀ (by norm_num : (0:ℚ) < 2)]
      have h1q : ((total : ℚ)) + 1 ≤ 2 * c := by exact_mod_cast h1
      push_cast
      linarith
  unfold seat_target
  rw [hceil]
  exact Int.toNat_natCast c

def coalition_seats (selection : List (ℕ × String)) : ℕ :=
  (selection.map Prod.fst).sum

def coalition_names (selection : List (ℕ × String)) : List String :=
  selection.map Prod.snd

/-- Model of `_find_valid_coalitions_recursive`.  The Python loop
`for index, item in enumerate(remaining): recurse(remaining[index+1:],
selection + [item])` is translated by peeling the head: processing
`item :: rest` first recurses with the head appended to the selection and
then continues the loop over `rest` with the unchanged selection; the
continuation re-enters the function, which re-evaluates the two guards on
the unchanged selection to `False` exactly as they were, so the unrolling
is behaviour-preserving. -/
def find_valid_coalitions (maximum_coalition_size seat_target : ℕ) :
    List (ℕ × String) → List (ℕ × String) → List (List String)
  | remaining_parties, current_selection =>
    if seat_target ≤ coalition_seats current_selection then
      [coalition_names current_selection]
    else if maximum_coalition_size < current_selection.length + 1 then []
    else
      match remaining_parties with
      | [] => []
      | item :: rest =>
        find_valid_coalitions maximum_coalition_size seat_target rest
            (current_selection ++ [item]) ++
          find_valid_coalitions maximum_coalition_size seat_target rest
            current_selection

/-- Model of `Election._calculate_coalitions` (the final
`return valid_coalitions if valid_coalitions else []` is the trailing
`if`). -/
def calculate_coalitions_list (maximum_coalition_size : ℕ)
    (results : List (String × ℕ)) : List (List String) :=
  let total := (results.map Prod.snd).sum
  let sorted_list := sorted_desc (fun x => (x.1 : ℤ))
      (results.map (fun item => (item.2, item.1)))
  let valid_coalitions := find_valid_coalitions maximum_coalition_size
      (seat_target total) sorted_list []
  if valid_coalitions.isEmpty then [] else valid_coalitions

theorem find_valid_coalitions_sound (maximum_coalition_size target : ℕ) :
    ∀ (remaining selection : List (ℕ × String)),
      selection.length ≤ maximum_coalition_size →
      (∀ k, k < selection.length →
        coalition_seats (selection.take k) < target) →
      ∀ c ∈ find_valid_coalitions maximum_coalition_size target remaining
          selection,
        ∃ s : List (ℕ × String), c = coalition_names s ∧
          s.length ≤ maximum_coalition_size ∧
          target ≤ coalition_seats s ∧
          ∀ k, k < s.length → coalition_seats (s.take k) < target := by
  intro remaining
  induction remaining with
  | nil =>
    intro selection hlen htrunc c hc
    rw [find_valid_coalitions] at hc
    by_cases h1 : target ≤ coalition_seats selection
    · rw [if_pos h1] at hc
      rcases List.mem_singleton.mp hc with rfl
      exact ⟨selection, rfl, hlen, h1, htrunc⟩
    · rw [if_neg h1] at hc
      by_cases h2 : maximum_coalition_size < selection.length + 1
      · rw [if_pos h2] at hc
        exact absurd hc (List.not_mem_nil c)
      · rw [if_neg h2] at hc
        exact absurd hc (List.not_mem_nil c)
  | cons item rest ih =>
    intro selection hlen htrunc c hc
    rw [find_valid_coalitions] at hc
    by_cases h1 : target ≤ coalition_seats selection
    · rw [if_pos h1] at hc
      rcases List.mem_singleton.mp hc with rfl
      exact ⟨selection, rfl, hlen, h1, htrunc⟩
    · rw [if_neg h1] at hc
      by_cases h2 : maximum_coalition_size < selection.length + 1
      · rw [if_pos h2] at hc
        exact absurd hc (List.not_mem_nil c)
      · rw [if_neg h2] at hc
        rcases List.mem_append.mp hc with hc' | hc'
        · refine ih (selection ++ [item]) ?_ ?_ c hc'
          · rw [List.length_append, List.length_singleton]
            omega
          · intro k hk
            rw [List.length_append, List.length_singleton] at hk
            have hk' : k ≤ selection.length := by omega
            rw [List.take_append_of_le_length hk']
            rcases Nat.lt_or_ge k selection.length with hlt | hge
            · exact htrunc k hlt
            · have hke : k = selection.length := by omega
              rw [hke, List.take_length]
              exact lt_of_not_le h1
        · exact ih selection hlen htrunc c hc'

/-- C3: every coalition emitted by `_calculate_coalitions` is the name list
of a selection whose seat sum meets the majority threshold
`ceil((total + 1) / 2)`, whose size is at most `maximum_coalition_size`,
and no proper leading part of which already meets the threshold (the
search emits a selection as soon as it meets the threshold, without
extending it); and on the spec's example
{"party1": 1, "party2": 1, "party3": 3, "party4": 4} with maximum size 3
the search returns exactly
[["party4", "party3"], ["party4", "party1"], ["party4", "party2"],
["party3", "party1", "party2"]] in that depth-first discovery order. -/
theorem c3_calculate_coalitions :
    (∀ (maximum_coalition_size : ℕ) (results : List (String × ℕ))
        (c : List String),
      c ∈ calculate_coalitions_list maximum_coalition_size results →
      ∃ s : List (ℕ × String), c = coalition_names s ∧
        s.length ≤ maximum_coalition_size ∧
        seat_target ((results.map Prod.snd).sum) ≤ coalition_seats s ∧
        ∀ k, k < s.length → coalition_seats (s.take k) <
          seat_target ((results.map Prod.snd).sum)) ∧
    calculate_coalitions_list 3
        [("party1", 1), ("party2", 1), ("party3", 3), ("party4", 4)]
      = [["party4", "party3"], ["party4", "party1"], ["party4", "party2"],
         ["party3", "party1", "party2"]] := by
  constructor
  · intro maximum_coalition_size results c hc
    simp only [calculate_coalitions_list] at hc
    by_cases hemp : (find_valid_coalitions maximum_coalition_size
        (seat_target ((results.map Prod.snd).sum))
        (sorted_desc (fun x => (x.1 : ℤ))
          (results.map (fun item => (item.2, item.1)))) []).isEmpty
    · rw [if_pos hemp] at hc
      exact absurd hc (List.not_mem_nil c)
    · rw [if_neg hemp] at hc
      exact find_valid_coalitions_sound _ _ _ [] (Nat.zero_le _)
        (by intro k hk; simp at hk) c hc
  · simp only [calculate_coalitions_list, seat_target_eq]
    rfl

/-- C3 witness: the first coalition of the spec's example, with the
membership hypothesis discharged through the computed example. -/
theorem c3_calculate_coalitions_witness :
    ∃ s : List (ℕ × String),
      ["party4", "party3"] = coalition_names s ∧ s.length ≤ 3 ∧
      seat_target (([("party1", 1), ("party2", 1), ("party3", 3),
        ("party4", 4)].map Prod.snd).sum) ≤ coalition_seats s ∧
      ∀ k, k < s.length → coalition_seats (s.take k) <
        seat_target (([("party1", 1), ("party2", 1), ("party3", 3),
          ("party4", 4)].map Prod.snd).sum) :=
  c3_calculate_coalitions.1 3
    [("party1", 1), ("party2", 1), ("party3", 3), ("party4", 4)]
    ["party4", "party3"]
    (by rw [c3_calculate_coalitions.2]; decide)


/-! ### Election orchestrator state (src/elections/base_election.py)

`Election.__init__` sets `_results = {}`, `_results_calculated = False`,
`_coalitions = []`, `_coalitions_calculated = False`.  The `results` and
`coalitions` properties raise `NotCalculatedError` while their flag is
unset, `calculate_results` stores whatever `_calculate_results` returned
and sets the flag, and `calculate_coalitions` raises `NotCalculatedError`
unless `_results_calculated` is set. -/

inductive ElectionError where
  | notCalculated
  deriving DecidableEq

structure ElectionState where
  results : List (String × ℕ)
  results_calculated : Bool
  coalitions : List (List String)
  coalitions_calculated : Bool
  deriving DecidableEq

def election_init : ElectionState :=
  { results := [], results_calculated := false,
    coalitions := [], coalitions_calculated := false }

def results_property (s : ElectionState) :
    Except ElectionError (List (String × ℕ)) :=
  if s.results_calculated then Except.ok s.results
  else Except.error ElectionError.notCalculated

def coalitions_property (s : ElectionState) :
    Except ElectionError (List (List String)) :=
  if s.coalitions_calculated then Except.ok s.coalitions
  else Except.error ElectionError.notCalculated

/-- Model of `calculate_results`: stores the value computed by the subclass hook
`_calculate_results` (passed here as `computed`) and sets the flag. -/
def calculate_results_step (computed : List (String × ℕ))
    (s : ElectionState) : ElectionState :=
  { s with results := computed, results_calculated := true }

/-- Model of `calculate_coalitions`: raises `NotCalculatedError` unless results were
calculated, otherwise stores `_calculate_coalitions()` and sets the flag. -/
def calculate_coalitions_step (maximum_coalition_size : ℕ)
    (s : ElectionState) : Except ElectionError ElectionState :=
  if s.results_calculated then
    Except.ok { s with
      coalitions := calculate_coalitions_list maximum_coalition_size s.results,
      coalitions_calculated := true }
  else Except.error ElectionError.notCalculated

/-- C8: while `_results_calculated` is unset the `results` accessor fails
with `NotCalculatedError`, while `_coalitions_calculated` is unset the
`coalitions` accessor fails with `NotCalculatedError`, and
`calculate_coalitions` fails with `NotCalculatedError` whenever results
have not been calculated; in particular all three fail on a freshly
constructed election.  The accessors are pure state readers: they return
the stored field unchanged when the flag is set (no lazy computation). -/
theorem c8_not_calculated_errors (s : ElectionState)
    (maximum_coalition_size : ℕ) :
    (s.results_calculated = false →
      results_property s = Except.error ElectionError.notCalculated) ∧
    (s.coalitions_calculated = false →
      coalitions_property s = Except.error ElectionError.notCalculated) ∧
    (s.results_calculated = false →
      calculate_coalitions_step maximum_coalition_size s
        = Except.error ElectionError.notCalculated) ∧
    (s.results_calculated = true → results_property s = Except.ok s.results) ∧
    (s.coalitions_calculated = true →
      coalitions_property s = Except.ok s.coalitions) ∧
    results_property election_init
      = Except.error ElectionError.notCalculated ∧
    coalitions_property election_init
      = Except.error ElectionError.notCalculated ∧
    calculate_coalitions_step maximum_coalition_size election_init
      = Except.error ElectionError.notCalculated := by
  refine ⟨?_, ?_, ?_, ?_, ?_, rfl, rfl, rfl⟩
  · intro h; simp [results_property, h]
  · intro h; simp [coalitions_property, h]
  · intro h; simp [calculate_coalitions_step, h]
  · intro h; simp [results_property, h]
  · intro h; simp [coalitions_property, h]

/-- C8 witness: the three failures observed on a fresh election. -/
theorem c8_not_calculated_errors_witness :
    results_property election_init
      = Except.error ElectionError.notCalculated ∧
    coalitions_property election_init
      = Except.error ElectionError.notCalculated ∧
    calculate_coalitions_step 3 election_init
      = Except.error ElectionError.notCalculated := by
  have h := c8_not_calculated_errors election_init 3
  exact ⟨h.1 rfl, h.2.1 rfl, h.2.2.1 rfl⟩

/-- C6: with seven one-seat parties and maximum coalition size 3 the
threshold 4 is unreachable, the search finds nothing, and after running
`calculate_results` then `calculate_coalitions` the stored and exposed
coalitions value is the empty list — an empty sequence, not an
absent/error value. -/
theorem c6_no_viable_coalition_empty_list :
    calculate_coalitions_list 3
        [("party1", 1), ("party2", 1), ("party3", 1), ("party4", 1),
         ("party5", 1), ("party6", 1), ("party7", 1)] = [] ∧
    ∃ s : ElectionState,
      calculate_coalitions_step 3
          (calculate_results_step
            [("party1", 1), ("party2", 1), ("party3", 1), ("party4", 1),
             ("party5", 1), ("party6", 1), ("party7", 1)] election_init)
        = Except.ok s ∧
      coalitions_property s = Except.ok [] ∧ s.coalitions = [] := by
  have hempty : calculate_coalitions_list 3
      [("party1", 1), ("party2", 1), ("party3", 1), ("party4", 1),
       ("party5", 1), ("party6", 1), ("party7", 1)] = [] := by
    simp only [calculate_coalitions_list, seat_target_eq]
    rfl
  refine ⟨hempty,
    ⟨{ results := [("party1", 1), ("party2", 1), ("party3", 1), ("party4", 1),
         ("party5", 1), ("party6", 1), ("party7", 1)],
       results_calculated := true, coalitions := [],
       coalitions_calculated := true }, ?_, ?_, rfl⟩⟩
  · simp [calculate_coalitions_step, calculate_results_step, election_init,
      hempty]
  · simp [coalitions_property]

/-! ### FPTP allocator (src/elections/fptp.py)

`_calculate_results` computes `max_vote_counts = votes.max(axis=1,
initial=0)`, flags `votes == max_vote_counts[:, np.newaxis]`, sums the
flags per column (`sum(axis=0)`), zips with the party list and applies
`sort_results`. -/

/-- Row maximum with numpy's `initial=0` included. -/
def max_vote_count (row : List ℤ) : ℤ := row.foldl max 0

/-- Column `j` of `winning_party_flags.sum(axis=0)`: the number of rows
whose `j`-th entry equals that row's maximum. -/
def party_seats_column (votes : List (List ℤ)) (j : ℕ) : ℕ :=
  votes.countP (fun row => row.getD j 0 == max_vote_count row)

def fptp_parties_seats (parties : List String) (votes : List (List ℤ)) :
    List (String × ℕ) :=
  parties.zip ((List.range parties.length).map (party_seats_column votes))

def fptp_calculate_results (parties : List String) (votes : List (List ℤ)) :
    List (String × ℕ) :=
  sort_results (fptp_parties_seats parties votes)

/-- Number of parties (among the first `n` columns) achieving the row
maximum in one row. -/
def row_achievers (row : List ℤ) (n : ℕ) : ℕ :=
  (List.range n).countP (fun j => row.getD j 0 == max_vote_count row)

theorem foldl_max_mem (row : List ℤ) (a : ℤ) : row.foldl max a ∈ a :: row := by
  induction row generalizing a with
  | nil => simp
  | cons x xs ih =>
    rw [List.foldl_cons]
    have h := ih (max a x)
    rcases List.mem_cons.mp h with h' | h'
    · rcases max_choice a x with hm | hm
      · rw [h', hm]
        exact List.mem_cons_self _ _
      · rw [h', hm]
        exact List.mem_cons_of_mem _ (List.mem_cons_self _ _)
    · exact List.mem_cons_of_mem _ (List.mem_cons_of_mem _ h')

theorem foldl_max_le (row : List ℤ) (a : ℤ) :
    a ≤ row.foldl max a ∧ ∀ v ∈ row, v ≤ row.foldl max a := by
  induction row generalizing a with
  | nil => simp
  | cons x xs ih =>
    have h := ih (max a x)
    refine ⟨le_trans (le_max_left a x) h.1, ?_⟩
    intro v hv
    rcases List.mem_cons.mp hv with rfl | hv
    · exact le_trans (le_max_right a v) h.1
    · exact h.2 v hv

theorem max_vote_count_mem (row : List ℤ) (hne : row ≠ [])
    (hnn : ∀ v ∈ row, 0 ≤ v) : max_vote_count row ∈ row := by
  have h := foldl_max_mem row 0
  rcases List.mem_cons.mp h with h' | h'
  · rcases List.exists_mem_of_ne_nil row hne with ⟨v, hv⟩
    have h1 : v ≤ max_vote_count row := (foldl_max_le row 0).2 v hv
    have h2 : 0 ≤ v := hnn v hv
    rw [max_vote_count, h'] at h1 ⊢
    have : v = 0 := le_antisymm h1 h2
    rwa [← this]
  · exact h'

theorem countP_eq_sum_map {α : Type} (p : α → Bool) (l : List α) :
    l.countP p = (l.map (fun x => if p x then 1 else 0)).sum := by
  induction l with
  | nil => rfl
  | cons x xs ih =>
    rw [List.countP_cons, List.map_cons, List.sum_cons, ih]
    by_cases hx : p x
    · simp only [hx, if_true]
      omega
    · simp only [hx, if_false]
      omega

theorem sum_map_add_nat {α : Type} (f g : α → ℕ) (l : List α) :
    (l.map (fun x => f x + g x)).sum = (l.map f).sum + (l.map g).sum := by
  induction l with
  | nil => rfl
  | cons x xs ih => simp [List.map_cons, List.sum_cons, ih]; omega

/-- Column sums of the flag matrix, totalled over the columns, equal the
per-row achiever counts totalled over the rows. -/
theorem fptp_total_exchange (votes : List (List ℤ)) (n : ℕ) :
    (((List.range n).map (party_seats_column votes)).sum)
      = (votes.map (fun row => row_achievers row n)).sum := by
  induction votes with
  | nil =>
    have h0 : party_seats_column [] = fun _ => (0 : ℕ) := by
      funext j
      rfl
    rw [h0]
    simp
  | cons row vs ih =>
    have hcol : party_seats_column (row :: vs)
        = fun j => party_seats_column vs j
          + (if (row.getD j 0 == max_vote_count row) then 1 else 0) := by
      funext j
      rw [party_seats_column, List.countP_cons]
      rfl
    calc ((List.range n).map (party_seats_column (row :: vs))).sum
        = ((List.range n).map (fun j => party_seats_column vs j
            + if (row.getD j 0 == max_vote_count row) then 1 else 0)).sum := by
          rw [hcol]
      _ = ((List.range n).map (party_seats_column vs)).sum
            + ((List.range n).map (fun j =>
                if (row.getD j 0 == max_vote_count row) then 1 else 0)).sum :=
          sum_map_add_nat _ _ _
      _ = ((List.range n).map (party_seats_column vs)).sum
            + row_achievers row n := by
          rw [row_achievers, countP_eq_sum_map]
      _ = ((row :: vs).map (fun r => row_achievers r n)).sum := by
          rw [ih, List.map_cons, List.sum_cons]
          omega

theorem row_achievers_pos (row : List ℤ) (n : ℕ) (hn : 0 < n)
    (hlen : row.length = n) (hnn : ∀ v ∈ row, 0 ≤ v) :
    1 ≤ row_achievers row n := by
  have hne : row ≠ [] := by
    intro h
    rw [h] at hlen
    simp at hlen
    omega
  have hmem := max_vote_count_mem row hne hnn
  rcases List.mem_iff_getElem.mp hmem with ⟨j, hj, hget⟩
  have hjn : j < n := by omega
  have hpos : 0 < (List.range n).countP
      (fun k => row.getD k 0 == max_vote_count row) := by
    rw [List.countP_pos_iff]
    refine ⟨j, List.mem_range.mpr hjn, ?_⟩
    rw [List.getD_eq_getElem row 0 (by omega), hget]
    exact beq_self_eq_true _
  rw [row_achievers]
  omega

theorem row_achievers_all_zero (row : List ℤ) (n : ℕ)
    (hz : ∀ v ∈ row, v = 0) : row_achievers row n = n := by
  have hmax : max_vote_count row = 0 := by
    have hmem := foldl_max_mem row 0
    rcases List.mem_cons.mp hmem with h' | h'
    · exact h'
    · exact hz _ h'
  have hget : ∀ j : ℕ, row.getD j 0 = 0 := by
    intro j
    rcases Nat.lt_or_ge j row.length with hlt | hge
    · rw [List.getD_eq_getElem row 0 hlt]
      exact hz _ (List.getElem_mem hlt)
    · exact List.getD_eq_default row 0 hge
  rw [row_achievers]
  have hall : ∀ j ∈ List.range n,
      (row.getD j 0 == max_vote_count row) = true := by
    intro j _
    rw [hget j, hmax]
    rfl
  rw [List.countP_eq_length.mpr hall, List.length_range]

theorem length_le_sum_of_one_le (l : List ℕ) (h : ∀ x ∈ l, 1 ≤ x) :
    l.length ≤ l.sum ∧ (l.sum = l.length ↔ ∀ x ∈ l, x = 1) := by
  induction l with
  | nil => simp
  | cons x xs ih =>
    have hx := h x (List.mem_cons_self x xs)
    have ihs := ih (fun y hy => h y (List.mem_cons_of_mem x hy))
    constructor
    · simp only [List.sum_cons, List.length_cons]
      omega
    · simp only [List.sum_cons, List.length_cons]
      constructor
      · intro he
        have hx1 : x = 1 := by omega
        have hs : xs.sum = xs.length := by omega
        intro y hy
        rcases List.mem_cons.mp hy with rfl | hy
        · exact hx1
        · exact (ihs.2.mp hs) y hy
      · intro hall
        have hx1 : x = 1 := hall x (List.mem_cons_self x xs)
        have hs : xs.sum = xs.length :=
          ihs.2.mpr (fun y hy => hall y (List.mem_cons_of_mem x hy))
        omega

/-- C2: with at least one party column and a rectangular non-negative vote
matrix, the FPTP allocator's column count for party `j` is the sum over
the rows of a full-seat credit given exactly when that party's entry
equals the row maximum (an all-zero row has maximum 0, so there every
column is credited); the total of all credits is the total of the per-row
achiever counts, hence at least the number of rows, with equality exactly
when every row has a single achiever (no tie for first place). -/
theorem c2_fptp_credits (parties : List String) (votes : List (List ℤ))
    (hn : 0 < parties.length)
    (hrect : ∀ row ∈ votes, row.length = parties.length)
    (hnn : ∀ row ∈ votes, ∀ v ∈ row, 0 ≤ v) :
    (fptp_parties_seats parties votes = parties.zip
      ((List.range parties.length).map (party_seats_column votes))) ∧
    (∀ j, party_seats_column votes j
      = (votes.map (fun row =>
          if row.getD j 0 == max_vote_count row then 1 else 0)).sum) ∧
    (((List.range parties.length).map (party_seats_column votes)).sum
      = (votes.map (fun row => row_achievers row parties.length)).sum) ∧
    (∀ row ∈ votes, (∀ v ∈ row, v = 0) →
      row_achievers row parties.length = parties.length) ∧
    (votes.length ≤
      ((List.range parties.length).map (party_seats_column votes)).sum) ∧
    (((List.range parties.length).map (party_seats_column votes)).sum
        = votes.length ↔
      ∀ row ∈ votes, row_achievers row parties.length = 1) := by
  have hach : ∀ row ∈ votes, 1 ≤ row_achievers row parties.length := by
    intro row hrow
    exact row_achievers_pos row parties.length hn (hrect row hrow)
      (hnn row hrow)
  have hlist := length_le_sum_of_one_le
    (votes.map (fun row => row_achievers row parties.length))
    (by
      intro x hx
      rcases List.mem_map.mp hx with ⟨row, hrow, rfl⟩
      exact hach row hrow)
  have hxch := fptp_total_exchange votes parties.length
  refine ⟨rfl, ?_, hxch, ?_, ?_, ?_⟩
  · intro j
    rw [party_seats_column]
    exact countP_eq_sum_map _ votes
  · intro row hrow hz
    exact row_achievers_all_zero row parties.length hz
  · rw [hxch]
    simpa using hlist.1
  · rw [hxch]
    have hlen : (votes.map
        (fun row => row_achievers row parties.length)).length
        = votes.length := List.length_map _ _
    rw [← hlen]
    constructor
    · intro he
      intro row hrow
      have := hlist.2.mp he
      exact this _ (List.mem_map.mpr ⟨row, hrow, rfl⟩)
    · intro hall
      refine hlist.2.mpr ?_
      intro x hx
      rcases List.mem_map.mp hx with ⟨row, hrow, rfl⟩
      exact hall row hrow

/-- C2 witness: a concrete instance (one party, one all-zero row). -/
theorem c2_fptp_credits_witness :
    (0 < (["A"] : List String).length) ∧
    (((List.range (["A"] : List String).length).map
        (party_seats_column [[(0 : ℤ)]])).sum
      = ([[(0 : ℤ)]].map
          (fun row => row_achievers row (["A"] : List String).length)).sum) :=
  ⟨by decide,
    (c2_fptp_credits ["A"] [[(0 : ℤ)]] (by decide)
      (by intro row hrow; simp at hrow; simp [hrow])
      (by intro row hrow v hv; simp at hrow; rw [hrow] at hv; simp at hv
          omega)).2.2.1⟩

/-! ### PR (D'Hondt) allocator (src/elections/pr.py)

`_compute_seats_by_pr` computes `total_seats = np.shape(votes)[0]` (the
row count), `party_totals = np.sum(votes, axis=0)` (the column sums),
starts with `obtained_seats = [0] * len(parties)` and a min-heap of pairs
`(-total_vote, party)`; then `total_seats` times it pops the least pair,
increments that party's seat count and pushes
`(-party_totals[party] / (obtained_seats[party] + 1), party)`.

`heapq.heappop` removes and returns the least pair under Python's
lexicographic tuple order, and `heapq.heapify`/`heappush` only rearrange
contents, so the heap is modelled by its list of contents and a pop by
removing the least element; quotients are exact rationals. -/

def party_totals (num_parties : ℕ) (votes : List (List ℤ)) : List ℤ :=
  (List.range num_parties).map
    (fun j => (votes.map (fun row => row.getD j 0)).sum)

/-- Python's lexicographic order on the `(votes_per_seat, party)` pairs. -/
def entry_le (a b : ℚ × ℕ) : Prop :=
  a.1 < b.1 ∨ (a.1 = b.1 ∧ a.2 ≤ b.2)

instance entry_le_decidable : DecidableRel entry_le := by
  intro a b
  unfold entry_le
  infer_instance

theorem entry_le_refl (a : ℚ × ℕ) : entry_le a a := Or.inr ⟨rfl, le_refl _⟩

theorem entry_le_total (a b : ℚ × ℕ) : entry_le a b ∨ entry_le b a := by
  rcases lt_trichotomy a.1 b.1 with h | h | h
  · exact Or.inl (Or.inl h)
  · rcases Nat.le_total a.2 b.2 with h2 | h2
    · exact Or.inl (Or.inr ⟨h, h2⟩)
    · exact Or.inr (Or.inr ⟨h.symm, h2⟩)
  · exact Or.inr (Or.inl h)

theorem entry_le_trans {a b c : ℚ × ℕ} (hab : entry_le a b)
    (hbc : entry_le b c) : entry_le a c := by
  rcases hab with h1 | ⟨h1, h1'⟩ <;> rcases hbc with h2 | ⟨h2, h2'⟩
  · exact Or.inl (lt_trans h1 h2)
  · exact Or.inl (h2 ▸ h1)
  · exact Or.inl (h1 ▸ h2)
  · exact Or.inr ⟨h1.trans h2, le_trans h1' h2'⟩

theorem entry_le_antisymm {a b : ℚ × ℕ} (hab : entry_le a b)
    (hba : entry_le b a) : a = b := by
  rcases hab with h1 | ⟨h1, h1'⟩
  · rcases hba with h2 | ⟨h2, h2'⟩
    · exact absurd h2 (lt_asymm h1)
    · exact absurd h1 (h2 ▸ lt_irrefl _)
  · rcases hba with h2 | ⟨h2, h2'⟩
    · exact absurd h2 (h1 ▸ lt_irrefl _)
    · exact Prod.ext h1 (le_antisymm h1' h2')

/-- Contents-level model of `heapq.heappop`'s returned element: the least
entry of the heap. -/
def heap_min : List (ℚ × ℕ) → Option (ℚ × ℕ)
  | [] => none
  | x :: xs => some (xs.foldl (fun a b => if entry_le a b then a else b) x)

theorem foldl_min_mem (xs : List (ℚ × ℕ)) (a : ℚ × ℕ) :
    xs.foldl (fun u v => if entry_le u v then u else v) a ∈ a :: xs := by
  induction xs generalizing a with
  | nil => simp
  | cons x xs ih =>
    rw [List.foldl_cons]
    have h := ih (if entry_le a x then a else x)
    rcases List.mem_cons.mp h with h' | h'
    · rw [h']
      by_cases hc : entry_le a x
      · rw [if_pos hc]
        exact List.mem_cons_self _ _
      · rw [if_neg hc]
        exact List.mem_cons_of_mem _ (List.mem_cons_self _ _)
    · exact List.mem_cons_of_mem _ (List.mem_cons_of_mem _ h')

theorem foldl_min_le (xs : List (ℚ × ℕ)) (a : ℚ × ℕ) :
    entry_le (xs.foldl (fun u v => if entry_le u v then u else v) a) a ∧
    ∀ y ∈ xs, entry_le (xs.foldl (fun u v => if entry_le u v then u else v) a) y := by
  induction xs generalizing a with
  | nil => exact ⟨entry_le_refl a, by simp⟩
  | cons x xs ih =>
    rw [List.foldl_cons]
    by_cases hc : entry_le a x
    · rw [if_pos hc]
      have h := ih a
      refine ⟨h.1, ?_⟩
      intro y hy
      rcases List.mem_cons.mp hy with rfl | hy
      · exact entry_le_trans h.1 hc
      · exact h.2 y hy
    · rw [if_neg hc]
      have h := ih x
      have hxa : entry_le x a := (entry_le_total a x).resolve_left hc
      refine ⟨entry_le_trans h.1 hxa, ?_⟩
      intro y hy
      rcases List.mem_cons.mp hy with rfl | hy
      · exact h.1
      · exact h.2 y hy

theorem heap_min_spec (heap : List (ℚ × ℕ)) (hne : heap ≠ []) :
    ∃ m, heap_min heap = some m ∧ m ∈ heap ∧ ∀ y ∈ heap, entry_le m y := by
  cases heap with
  | nil => exact absurd rfl hne
  | cons x xs =>
    refine ⟨_, rfl, foldl_min_mem xs x, ?_⟩
    intro y hy
    rcases List.mem_cons.mp hy with rfl | hy
    · exact (foldl_min_le xs y).1
    · exact (foldl_min_le xs x).2 y hy

/-- The `(votes_per_seat, party)` pair the code keeps in the heap for
party `i` at seat-state `obtained`:
`(-party_totals[i] / (obtained_seats[i] + 1), i)` (initially
`obtained_seats[i] = 0`, so it is `-party_totals[i]`). -/
def quotient_entry (tl : List ℤ) (obtained : List ℕ) (i : ℕ) : ℚ × ℕ :=
  (-((tl.getD i 0 : ℤ) : ℚ) / (((obtained.getD i 0 : ℕ) : ℚ) + 1), i)

/-- The heap contents determined by the seat-state: one entry per party. -/
def canonical_heap (tl : List ℤ) (obtained : List ℕ) (n : ℕ) :
    List (ℚ × ℕ) :=
  (List.range n).map (quotient_entry tl obtained)

/-- One iteration of the seat loop of `_compute_seats_by_pr`. -/
def pr_step (tl : List ℤ) (st : List ℕ × List (ℚ × ℕ)) :
    Option (List ℕ × List (ℚ × ℕ)) :=
  match heap_min st.2 with
  | none => none
  | some m =>
    let party := m.2
    let obtained_seats := st.1.set party (st.1.getD party 0 + 1)
    some (obtained_seats,
      (st.2.erase m) ++
        [(-((tl.getD party 0 : ℤ) : ℚ) /
            (((obtained_seats.getD party 0 : ℕ) : ℚ) + 1), party)])

/-- Model of `for _ in range(total_seats)`: iterate `pr_step`; popping from an
empty heap is the `IndexError` heapq raises, modelled as `none`. -/
def pr_loop (tl : List ℤ) : ℕ → List ℕ × List (ℚ × ℕ) →
    Option (List ℕ × List (ℚ × ℕ))
  | 0, st => some st
  | k + 1, st =>
    match pr_step tl st with
    | none => none
    | some st2 => pr_loop tl k st2

/-- Model of `ProportionalRepresentation._compute_seats_by_pr`. -/
def compute_seats_by_pr (parties : List String) (votes : List (List ℤ)) :
    Option (List (String × ℕ)) :=
  let total_seats := votes.length
  let tl := party_totals parties.length votes
  let obtained_seats := List.replicate parties.length 0
  let parties_min_heap := (List.range parties.length).map
      (fun party => ((-((tl.getD party 0 : ℤ) : ℚ)), party))
  match pr_loop tl total_seats (obtained_seats, parties_min_heap) with
  | none => none
  | some st => some (parties.zip st.1)

/-! ### The spec's D'Hondt reference method

Modelled from the spec: repeat S times — select the party with the
highest current quotient `total_votes / (awarded_seats + 1)`, ties broken
by a stable priority ordering (the position in the party list); increment
its awarded-seats counter. -/

/-- Modelled from the spec: a party's current quotient. -/
def dhondt_quotient (tl : List ℤ) (obtained : List ℕ) (i : ℕ) : ℚ :=
  ((tl.getD i 0 : ℤ) : ℚ) / (((obtained.getD i 0 : ℕ) : ℚ) + 1)

/-- Modelled from the spec: scan step keeping the current best party
unless a strictly higher quotient appears (so ties keep the earlier
party). -/
def select_step (tl : List ℤ) (obtained : List ℕ) (best j : ℕ) : ℕ :=
  if dhondt_quotient tl obtained best < dhondt_quotient tl obtained j then j
  else best

/-- Modelled from the spec: the selected party — the lowest-index party
with the maximal current quotient. -/
def dhondt_select (tl : List ℤ) (obtained : List ℕ) (n : ℕ) : ℕ :=
  (List.range n).foldl (select_step tl obtained) 0

/-- Modelled from the spec: S allocation rounds. -/
def dhondt_rounds (tl : List ℤ) (n : ℕ) : ℕ → List ℕ → List ℕ
  | 0, obtained => obtained
  | k + 1, obtained =>
    dhondt_rounds tl n k
      (obtained.set (dhondt_select tl obtained n)
        (obtained.getD (dhondt_select tl obtained n) 0 + 1))

/-- Modelled from the spec: the whole reference allocation (S = the row
count, party totals = the column sums, all counters starting at 0). -/
def dhondt_reference (parties : List String) (votes : List (List ℤ)) :
    List (String × ℕ) :=
  parties.zip (dhondt_rounds (party_totals parties.length votes)
    parties.length votes.length (List.replicate parties.length 0))

theorem select_foldl_spec (tl : List ℤ) (ob : List ℕ) :
    ∀ (l : List ℕ) (b : ℕ), l.Pairwise (· < ·) → (∀ x ∈ l, b < x) →
      (l.foldl (select_step tl ob) b = b ∨ l.foldl (select_step tl ob) b ∈ l) ∧
      ∀ x ∈ b :: l,
        dhondt_quotient tl ob x
            < dhondt_quotient tl ob (l.foldl (select_step tl ob) b) ∨
        (dhondt_quotient tl ob x
            = dhondt_quotient tl ob (l.foldl (select_step tl ob) b) ∧
          l.foldl (select_step tl ob) b ≤ x) := by
  intro l
  induction l with
  | nil =>
    intro b _ _
    refine ⟨Or.inl rfl, ?_⟩
    intro x hx
    rcases List.mem_cons.mp hx with rfl | hx
    · exact Or.inr ⟨rfl, le_refl _⟩
    · exact absurd hx (List.not_mem_nil x)
  | cons j l ih =>
    intro b hpw hlt
    rcases List.pairwise_cons.mp hpw with ⟨hjl, hpl⟩
    have hbj : b < j := hlt j (List.mem_cons_self j l)
    rw [List.foldl_cons]
    by_cases hc : dhondt_quotient tl ob b < dhondt_quotient tl ob j
    · have hstep : select_step tl ob b j = j := if_pos hc
      rw [hstep]
      have h := ih j hpl hjl
      refine ⟨?_, ?_⟩
      · rcases h.1 with h' | h'
        · refine Or.inr ?_
          rw [h']
          exact List.mem_cons_self j l
        · exact Or.inr (List.mem_cons_of_mem j h')
      · intro x hx
        rcases List.mem_cons.mp hx with rfl | hx
        · rcases h.2 j (List.mem_cons_self j l) with h' | ⟨h', _⟩
          · exact Or.inl (lt_trans hc h')
          · exact Or.inl (h' ▸ hc)
        · exact h.2 x hx
    · have hstep : select_step tl ob b j = b := if_neg hc
      rw [hstep]
      have hjb : dhondt_quotient tl ob j ≤ dhondt_quotient tl ob b :=
        le_of_not_lt hc
      have h := ih b hpl (fun x hx => lt_trans hbj (hjl x hx))
      refine ⟨?_, ?_⟩
      · rcases h.1 with h' | h'
        · exact Or.inl h'
        · exact Or.inr (List.mem_cons_of_mem j h')
      · intro x hx
        rcases List.mem_cons.mp hx with rfl | hx
        · exact h.2 x (List.mem_cons_self x l)
        · rcases List.mem_cons.mp hx with rfl | hx
          · rcases h.2 b (List.mem_cons_self b l) with h' | ⟨h', hle⟩
            · exact Or.inl (lt_of_le_of_lt hjb h')
            · rcases lt_or_eq_of_le hjb with h2 | h2
              · exact Or.inl (h' ▸ h2)
              · refine Or.inr ⟨h2.trans h', ?_⟩
                have hfb : l.foldl (select_step tl ob) b ≤ b := hle
                omega
          · exact h.2 x (List.mem_cons_of_mem b hx)

theorem dhondt_select_spec (tl : List ℤ) (ob : List ℕ) (n : ℕ)
    (hn : 0 < n) :
    dhondt_select tl ob n < n ∧
    ∀ j, j < n →
      dhondt_quotient tl ob j
          < dhondt_quotient tl ob (dhondt_select tl ob n) ∨
      (dhondt_quotient tl ob j
          = dhondt_quotient tl ob (dhondt_select tl ob n) ∧
        dhondt_select tl ob n ≤ j) := by
  obtain ⟨m, rfl⟩ := Nat.exists_eq_succ_of_ne_zero (Nat.pos_iff_ne_zero.mp hn)
  have hrange : List.range (m + 1) = 0 :: (List.range m).map Nat.succ :=
    List.range_succ_eq_map m
  have hpw : ((List.range m).map Nat.succ).Pairwise (· < ·) := by
    refine List.Pairwise.map Nat.succ ?_ (List.pairwise_lt_range m)
    intro a b hab
    omega
  have hpos : ∀ x ∈ (List.range m).map Nat.succ, 0 < x := by
    intro x hx
    rcases List.mem_map.mp hx with ⟨y, _, rfl⟩
    omega
  have hsel : dhondt_select tl ob (m + 1)
      = ((List.range m).map Nat.succ).foldl (select_step tl ob) 0 := by
    rw [dhondt_select, hrange, List.foldl_cons]
    have : select_step tl ob 0 0 = 0 := by
      rw [select_step, if_neg (lt_irrefl _)]
    rw [this]
  have h := select_foldl_spec tl ob ((List.range m).map Nat.succ) 0 hpw hpos
  rw [← hsel] at h
  constructor
  · rcases h.1 with h' | h'
    · rw [h']
      omega
    · rcases List.mem_map.mp h' with ⟨y, hy, hxy⟩
      rw [← hxy]
      have hy' := List.mem_range.mp hy
      omega
  · intro j hj
    have hjmem : j ∈ 0 :: (List.range m).map Nat.succ := by
      rw [← hrange]
      exact List.mem_range.mpr hj
    exact h.2 j hjmem

/-! ### The heap refines the reference method -/

theorem getD_set_self_nat (l : List ℕ) (p v : ℕ) (hp : p < l.length) :
    (l.set p v).getD p 0 = v := by
  rw [List.getD_eq_getElem _ _ (by rw [List.length_set]; exact hp)]
  exact List.getElem_set_self _

theorem getD_set_ne_nat (l : List ℕ) (p i v : ℕ) (h : i ≠ p) :
    (l.set p v).getD i 0 = l.getD i 0 := by
  by_cases hi : i < l.length
  · rw [List.getD_eq_getElem _ _ (by rw [List.length_set]; exact hi),
      List.getD_eq_getElem _ _ hi]
    exact List.getElem_set_ne (Ne.symm h) _
  · rw [List.getD_eq_default _ _ (by rw [List.length_set]; omega),
      List.getD_eq_default _ _ (by omega)]

theorem getD_replicate_zero (n i : ℕ) :
    (List.replicate n (0 : ℕ)).getD i 0 = 0 := by
  by_cases hi : i < n
  · rw [List.getD_eq_getElem _ _ (by rw [List.length_replicate]; exact hi)]
    exact List.getElem_replicate _ _
  · rw [List.getD_eq_default _ _ (by rw [List.length_replicate]; omega)]

theorem quotient_entry_fst (tl : List ℤ) (ob : List ℕ) (i : ℕ) :
    (quotient_entry tl ob i).1 = -(dhondt_quotient tl ob i) := by
  rw [quotient_entry, dhondt_quotient]
  exact neg_div _ _

theorem entry_le_quotient (tl : List ℤ) (ob : List ℕ) (i j : ℕ) :
    entry_le (quotient_entry tl ob i) (quotient_entry tl ob j) ↔
      (dhondt_quotient tl ob j < dhondt_quotient tl ob i ∨
        (dhondt_quotient tl ob j = dhondt_quotient tl ob i ∧ i ≤ j)) := by
  have hsnd : ∀ m, (quotient_entry tl ob m).2 = m := fun m => rfl
  rw [entry_le, quotient_entry_fst, quotient_entry_fst, hsnd, hsnd,
    neg_lt_neg_iff, neg_inj]
  constructor
  · rintro (h | ⟨h, h'⟩)
    · exact Or.inl h
    · exact Or.inr ⟨h.symm, h'⟩
  · rintro (h | ⟨h, h'⟩)
    · exact Or.inl h
    · exact Or.inr ⟨h.symm, h'⟩

theorem heap_min_canonical (tl : List ℤ) (ob : List ℕ) (n : ℕ) (hn : 0 < n)
    (heap : List (ℚ × ℕ)) (hperm : heap.Perm (canonical_heap tl ob n)) :
    heap_min heap = some (quotient_entry tl ob (dhondt_select tl ob n)) := by
  have hne : heap ≠ [] := by
    intro h
    have hlen := hperm.length_eq
    rw [h, canonical_heap, List.length_nil, List.length_map,
      List.length_range] at hlen
    omega
  obtain ⟨m, hm, hmem, hle⟩ := heap_min_spec heap hne
  rw [hm]
  have hmem' : m ∈ canonical_heap tl ob n := hperm.mem_iff.mp hmem
  rcases List.mem_map.mp hmem' with ⟨j, hj, rfl⟩
  have hjn : j < n := List.mem_range.mp hj
  obtain ⟨hseln, hsel⟩ := dhondt_select_spec tl ob n hn
  have h1 : entry_le (quotient_entry tl ob (dhondt_select tl ob n))
      (quotient_entry tl ob j) :=
    (entry_le_quotient tl ob _ j).mpr (hsel j hjn)
  have h2 : entry_le (quotient_entry tl ob j)
      (quotient_entry tl ob (dhondt_select tl ob n)) := by
    apply hle
    apply hperm.mem_iff.mpr
    rw [canonical_heap]
    exact List.mem_map.mpr ⟨_, List.mem_range.mpr hseln, rfl⟩
  rw [entry_le_antisymm h2 h1]

theorem map_update_perm (f f2 : ℕ → ℚ × ℕ) (p : ℕ)
    (hsnd : ∀ i, (f i).2 = i)
    (hsame : ∀ i, i ≠ p → f2 i = f i) :
    ∀ L : List ℕ, L.Nodup → p ∈ L →
      (L.map f2).Perm (((L.map f).erase (f p)) ++ [f2 p]) := by
  intro L
  induction L with
  | nil =>
    intro _ h
    exact absurd h (List.not_mem_nil p)
  | cons a L ih =>
    intro hnd hp
    rcases List.nodup_cons.mp hnd with ⟨hanotin, hndL⟩
    by_cases hap : a = p
    · subst hap
      have hmapeq : L.map f2 = L.map f := by
        apply List.map_congr_left
        intro i hi
        exact hsame i (fun h => hanotin (h ▸ hi))
      rw [List.map_cons, List.map_cons, List.erase_cons_head, hmapeq]
      exact (List.perm_append_singleton _ _).symm
    · have hpL : p ∈ L := by
        rcases List.mem_cons.mp hp with h | h
        · exact absurd h.symm hap
        · exact h
      have hfne : f a ≠ f p := by
        intro h
        have h2 := hsnd a
        rw [h, hsnd p] at h2
        exact hap h2.symm
      rw [List.map_cons, List.map_cons,
        List.erase_cons_tail (by simpa using hfne), hsame a hap,
        List.cons_append]
      exact (ih hndL hpL).cons (f a)

theorem canonical_heap_update (tl : List ℤ) (ob : List ℕ) (p v n : ℕ)
    (hp : p < n) :
    (canonical_heap tl (ob.set p v) n).Perm
      (((canonical_heap tl ob n).erase (quotient_entry tl ob p))
        ++ [quotient_entry tl (ob.set p v) p]) := by
  rw [canonical_heap, canonical_heap]
  apply map_update_perm (quotient_entry tl ob) (quotient_entry tl (ob.set p v))
    p (fun i => rfl)
  · intro i hip
    rw [quotient_entry, quotient_entry, getD_set_ne_nat _ _ _ _ hip]
  · exact List.nodup_range n
  · exact List.mem_range.mpr hp

theorem pr_step_eq (tl : List ℤ) (ob : List ℕ) (heap : List (ℚ × ℕ))
    (n : ℕ) (hn : 0 < n)
    (hperm : heap.Perm (canonical_heap tl ob n)) :
    pr_step tl (ob, heap) = some
      (ob.set (dhondt_select tl ob n) (ob.getD (dhondt_select tl ob n) 0 + 1),
       (heap.erase (quotient_entry tl ob (dhondt_select tl ob n))) ++
         [quotient_entry tl
           (ob.set (dhondt_select tl ob n)
             (ob.getD (dhondt_select tl ob n) 0 + 1))
           (dhondt_select tl ob n)]) := by
  rw [pr_step, heap_min_canonical tl ob n hn heap hperm]
  rfl

theorem canonical_heap_nodup (tl : List ℤ) (ob : List ℕ) (n : ℕ) :
    (canonical_heap tl ob n).Nodup := by
  rw [canonical_heap]
  refine List.Nodup.map ?_ (List.nodup_range n)
  intro i j hij
  exact congrArg Prod.snd hij

theorem perm_erase_nodup {l1 l2 : List (ℚ × ℕ)} (a : ℚ × ℕ)
    (hnd : l1.Nodup) (p : l1.Perm l2) : (l1.erase a).Perm (l2.erase a) := by
  rw [List.erase_eq_eraseP', List.erase_eq_eraseP']
  refine List.Perm.eraseP _ ?_ p
  refine hnd.imp ?_
  intro x y hxy hx hy
  exact absurd (by rw [eq_of_beq hx, eq_of_beq hy]) hxy

theorem pr_loop_spec (tl : List ℤ) (n : ℕ) (hn : 0 < n) :
    ∀ (k : ℕ) (ob : List ℕ) (heap : List (ℚ × ℕ)),
      ob.length = n → heap.Perm (canonical_heap tl ob n) →
      ∃ heap2,
        pr_loop tl k (ob, heap) = some (dhondt_rounds tl n k ob, heap2) ∧
        (dhondt_rounds tl n k ob).length = n ∧
        heap2.Perm (canonical_heap tl (dhondt_rounds tl n k ob) n) := by
  intro k
  induction k with
  | zero =>
    intro ob heap hlen hperm
    exact ⟨heap, rfl, hlen, hperm⟩
  | succ k ih =>
    intro ob heap hlen hperm
    have hstep := pr_step_eq tl ob heap n hn hperm
    have hlen2 : (ob.set (dhondt_select tl ob n)
        (ob.getD (dhondt_select tl ob n) 0 + 1)).length = n := by
      rw [List.length_set]
      exact hlen
    have hperm2 : ((heap.erase
          (quotient_entry tl ob (dhondt_select tl ob n))) ++
        [quotient_entry tl
          (ob.set (dhondt_select tl ob n)
            (ob.getD (dhondt_select tl ob n) 0 + 1))
          (dhondt_select tl ob n)]).Perm
        (canonical_heap tl
          (ob.set (dhondt_select tl ob n)
            (ob.getD (dhondt_select tl ob n) 0 + 1)) n) := by
      have hnd : heap.Nodup :=
        (hperm.nodup_iff).mpr (canonical_heap_nodup tl ob n)
      have e1 := perm_erase_nodup
        (quotient_entry tl ob (dhondt_select tl ob n)) hnd hperm
      have e2 := e1.append_right
        [quotient_entry tl
          (ob.set (dhondt_select tl ob n)
            (ob.getD (dhondt_select tl ob n) 0 + 1))
          (dhondt_select tl ob n)]
      exact e2.trans (canonical_heap_update tl ob (dhondt_select tl ob n) _ n
        (dhondt_select_spec tl ob n hn).1).symm
    obtain ⟨heap2, hh, hl, hp2⟩ := ih
      (ob.set (dhondt_select tl ob n) (ob.getD (dhondt_select tl ob n) 0 + 1))
      _ hlen2 hperm2
    refine ⟨heap2, ?_, ?_, ?_⟩
    · rw [pr_loop, hstep]
      exact hh
    · exact hl
    · exact hp2

/-- The initial heap `[(-total_vote, party) ...]` has exactly the
canonical contents for the all-zero seat state. -/
theorem initial_heap_canonical (tl : List ℤ) (n : ℕ) :
    ((List.range n).map (fun party => ((-((tl.getD party 0 : ℤ) : ℚ)), party)))
      = canonical_heap tl (List.replicate n 0) n := by
  rw [canonical_heap]
  apply List.map_congr_left
  intro i _
  rw [quotient_entry, getD_replicate_zero]
  norm_num

theorem compute_seats_by_pr_eq (parties : List String)
    (votes : List (List ℤ)) (hn : 0 < parties.length) :
    compute_seats_by_pr parties votes
      = some (parties.zip
          (dhondt_rounds (party_totals parties.length votes) parties.length
            votes.length (List.replicate parties.length 0))) := by
  obtain ⟨heap2, hh, _, _⟩ := pr_loop_spec (party_totals parties.length votes)
    parties.length hn votes.length (List.replicate parties.length 0)
    ((List.range parties.length).map
      (fun party => ((-(((party_totals parties.length votes).getD party 0 : ℤ)
        : ℚ)), party)))
    (List.length_replicate _ _)
    (by rw [initial_heap_canonical])
  simp only [compute_seats_by_pr]
  rw [hh]

/-- C1: for every non-empty party list, the heap-based allocator
`_compute_seats_by_pr` returns exactly the per-party seat counts of the
standard D'Hondt highest-averages reference method: S = row-count seats
assigned one at a time to the party with the highest current quotient
`total_votes / (awarded_seats + 1)` (party totals = column sums), ties
broken by the stable priority ordering of the party list. -/
theorem c1_heap_pr_refines_dhondt (parties : List String)
    (votes : List (List ℤ)) (hn : 0 < parties.length) :
    compute_seats_by_pr parties votes
      = some (dhondt_reference parties votes) := by
  rw [compute_seats_by_pr_eq parties votes hn]
  rfl

/-- C1 witness: a concrete two-party, one-constituency instance. -/
theorem c1_heap_pr_refines_dhondt_witness :
    0 < (["A", "B"] : List String).length ∧
    compute_seats_by_pr ["A", "B"] [[1, 2]]
      = some (dhondt_reference ["A", "B"] [[1, 2]]) :=
  ⟨by decide, c1_heap_pr_refines_dhondt ["A", "B"] [[1, 2]] (by decide)⟩

theorem sum_set_incr (l : List ℕ) (i : ℕ) (hi : i < l.length) :
    (l.set i (l.getD i 0 + 1)).sum = l.sum + 1 := by
  induction l generalizing i with
  | nil => simp at hi
  | cons x xs ih =>
    cases i with
    | zero =>
      simp [List.sum_cons]
      omega
    | succ i =>
      have hi' : i < xs.length := by
        rw [List.length_cons] at hi
        omega
      rw [List.getD_cons_succ, List.set_cons_succ, List.sum_cons,
        List.sum_cons, ih i hi']
      omega

theorem dhondt_rounds_length (tl : List ℤ) (n : ℕ) :
    ∀ (k : ℕ) (ob : List ℕ), (dhondt_rounds tl n k ob).length = ob.length := by
  intro k
  induction k with
  | zero =>
    intro ob
    rfl
  | succ k ih =>
    intro ob
    rw [dhondt_rounds, ih, List.length_set]

theorem dhondt_rounds_sum (tl : List ℤ) (n : ℕ) (hn : 0 < n) :
    ∀ (k : ℕ) (ob : List ℕ), ob.length = n →
      (dhondt_rounds tl n k ob).sum = ob.sum + k := by
  intro k
  induction k with
  | zero =>
    intro ob _
    rfl
  | succ k ih =>
    intro ob hlen
    rw [dhondt_rounds, ih _ (by rw [List.length_set]; exact hlen),
      sum_set_incr ob _ (by rw [hlen]; exact (dhondt_select_spec tl ob n hn).1)]
    omega

theorem getD_nonneg_of_mem_nonneg (row : List ℤ) (i : ℕ)
    (h : ∀ v ∈ row, 0 ≤ v) : 0 ≤ row.getD i 0 := by
  by_cases hi : i < row.length
  · rw [List.getD_eq_getElem _ _ hi]
    exact h _ (List.getElem_mem hi)
  · rw [List.getD_eq_default _ _ (by omega)]

theorem party_totals_nonneg (n : ℕ) (votes : List (List ℤ))
    (hnn : ∀ row ∈ votes, ∀ v ∈ row, 0 ≤ v) :
    ∀ i, 0 ≤ (party_totals n votes).getD i 0 := by
  intro i
  by_cases hi : i < n
  · rw [party_totals,
      List.getD_eq_getElem _ _ (by rw [List.length_map, List.length_range]; exact hi)]
    rw [List.getElem_map, List.getElem_range]
    apply List.sum_nonneg
    intro x hx
    rcases List.mem_map.mp hx with ⟨row, hrow, rfl⟩
    exact getD_nonneg_of_mem_nonneg row i (hnn row hrow)
  · rw [party_totals,
      List.getD_eq_default _ _ (by rw [List.length_map, List.length_range]; omega)]

theorem dhondt_quotient_pos (tl : List ℤ) (ob : List ℕ) (j : ℕ)
    (h : 0 < tl.getD j 0) : 0 < dhondt_quotient tl ob j := by
  rw [dhondt_quotient]
  apply div_pos
  · exact_mod_cast h
  · positivity

theorem dhondt_quotient_zero (tl : List ℤ) (ob : List ℕ) (i : ℕ)
    (h : tl.getD i 0 = 0) : dhondt_quotient tl ob i = 0 := by
  rw [dhondt_quotient, h]
  simp

theorem dhondt_rounds_zero_votes (tl : List ℤ) (n : ℕ) (hn : 0 < n)
    (hnneg : ∀ i, 0 ≤ tl.getD i 0)
    (j : ℕ) (hj : j < n) (hjne : tl.getD j 0 ≠ 0) :
    ∀ (k : ℕ) (ob : List ℕ) (i : ℕ), i < n → tl.getD i 0 = 0 →
      (dhondt_rounds tl n k ob).getD i 0 = ob.getD i 0 := by
  intro k
  induction k with
  | zero =>
    intro ob i _ _
    rfl
  | succ k ih =>
    intro ob i hi hzi
    rw [dhondt_rounds, ih _ i hi hzi]
    apply getD_set_ne_nat
    intro hie
    have hjq : 0 < dhondt_quotient tl ob j :=
      dhondt_quotient_pos tl ob j (lt_of_le_of_ne (hnneg j) (Ne.symm hjne))
    obtain ⟨hseln, hsel⟩ := dhondt_select_spec tl ob n hn
    have hle : dhondt_quotient tl ob j
        ≤ dhondt_quotient tl ob (dhondt_select tl ob n) := by
      rcases hsel j hj with h | ⟨h, _⟩
      · exact le_of_lt h
      · exact le_of_eq h
    have hzq : dhondt_quotient tl ob (dhondt_select tl ob n) = 0 := by
      rw [← hie]
      exact dhondt_quotient_zero tl ob i hzi
    rw [hzq] at hle
    exact absurd (lt_of_lt_of_le hjq hle) (lt_irrefl 0)

/-- C4: over a non-empty party list with non-negative votes the D'Hondt
allocation awards exactly S = row-count seats in total, and as long as
some party has a nonzero vote total, no party with a zero vote total is
awarded any seat. -/
theorem c4_dhondt_sum_and_zero_parties (parties : List String)
    (votes : List (List ℤ)) (hn : 0 < parties.length)
    (hnn : ∀ row ∈ votes, ∀ v ∈ row, 0 ≤ v) :
    ∃ seats : List ℕ,
      compute_seats_by_pr parties votes = some (parties.zip seats) ∧
      seats.length = parties.length ∧
      seats.sum = votes.length ∧
      ∀ j, j < parties.length →
        (party_totals parties.length votes).getD j 0 ≠ 0 →
        ∀ i, i < parties.length →
          (party_totals parties.length votes).getD i 0 = 0 →
          seats.getD i 0 = 0 := by
  refine ⟨dhondt_rounds (party_totals parties.length votes) parties.length
      votes.length (List.replicate parties.length 0),
    compute_seats_by_pr_eq parties votes hn, ?_, ?_, ?_⟩
  · rw [dhondt_rounds_length, List.length_replicate]
  · rw [dhondt_rounds_sum _ _ hn _ _ (List.length_replicate _ _)]
    simp
  · intro j hj hjne i hi hzi
    rw [dhondt_rounds_zero_votes (party_totals parties.length votes)
        parties.length hn
        (party_totals_nonneg parties.length votes hnn) j hj hjne
        votes.length (List.replicate parties.length 0) i hi hzi]
    exact getD_replicate_zero _ _

/-- C4 witness: two parties, one of them with zero votes. -/
theorem c4_dhondt_sum_and_zero_parties_witness :
    (0 < (["A", "B"] : List String).length ∧
      (∀ row ∈ ([[(1 : ℤ), 0]] : List (List ℤ)), ∀ v ∈ row, 0 ≤ v)) ∧
    ∃ seats : List ℕ,
      compute_seats_by_pr ["A", "B"] [[(1 : ℤ), 0]]
        = some ((["A", "B"] : List String).zip seats) ∧
      seats.length = (["A", "B"] : List String).length ∧
      seats.sum = ([[(1 : ℤ), 0]] : List (List ℤ)).length ∧
      ∀ j, j < (["A", "B"] : List String).length →
        (party_totals (["A", "B"] : List String).length
          [[(1 : ℤ), 0]]).getD j 0 ≠ 0 →
        ∀ i, i < (["A", "B"] : List String).length →
          (party_totals (["A", "B"] : List String).length
            [[(1 : ℤ), 0]]).getD i 0 = 0 →
          seats.getD i 0 = 0 :=
  ⟨⟨by decide, by decide⟩,
    c4_dhondt_sum_and_zero_parties ["A", "B"] [[(1 : ℤ), 0]] (by decide)
      (by decide)⟩

/-- C10: any pop the seat loop performs — the heap holding exactly the
pairs determined by the current seat state, in any order — returns the
pair of the smallest-index party among those with the maximal current
quotient; the selection is the function `dhondt_select` of the
(totals, seats) state, so the allocation is deterministic. -/
theorem c10_tie_break_smallest_index (tl : List ℤ) (ob : List ℕ) (n : ℕ)
    (heap : List (ℚ × ℕ)) (hn : 0 < n)
    (hperm : heap.Perm (canonical_heap tl ob n)) :
    heap_min heap = some (quotient_entry tl ob (dhondt_select tl ob n)) ∧
    dhondt_select tl ob n < n ∧
    (∀ j, j < n → dhondt_quotient tl ob j
      ≤ dhondt_quotient tl ob (dhondt_select tl ob n)) ∧
    (∀ j, j < n → dhondt_quotient tl ob j
        = dhondt_quotient tl ob (dhondt_select tl ob n) →
      dhondt_select tl ob n ≤ j) := by
  obtain ⟨hlt, hsel⟩ := dhondt_select_spec tl ob n hn
  refine ⟨heap_min_canonical tl ob n hn heap hperm, hlt, ?_, ?_⟩
  · intro j hj
    rcases hsel j hj with h | ⟨h, _⟩
    · exact le_of_lt h
    · exact le_of_eq h
  · intro j hj he
    rcases hsel j hj with h | ⟨_, h⟩
    · exact absurd he (ne_of_lt h)
    · exact h

/-- C10 witness: a two-party exact tie. -/
theorem c10_tie_break_smallest_index_witness :
    (0 : ℕ) < 2 ∧
    heap_min (canonical_heap [2, 2] [0, 0] 2)
      = some (quotient_entry [2, 2] [0, 0] (dhondt_select [2, 2] [0, 0] 2)) :=
  ⟨by decide,
    (c10_tie_break_smallest_index [2, 2] [0, 0] 2
      (canonical_heap [2, 2] [0, 0] 2) (by decide) (List.Perm.refl _)).1⟩

/-! ### Vote data retrieval (src/election_data/database.py) -/

inductive DataError where
  | notFound
  deriving DecidableEq

/-- The backing SQLite store as `get_regions` sees it: one table per
election, each row contributing its Country/Region label. -/
def lookup_table (tables : List (String × List String)) (name : String) :
    Option (List String) :=
  (tables.find? (fun t => t.1 == name)).map Prod.snd

/-- Modelled from the spec: `get_regions` runs
`SELECT DISTINCT [Country/Region] FROM [election_name]` through the SQL
engine, which is outside this repository; per the spec's error taxonomy
(NotFoundError — an unknown election identifier was requested of the data
source; surfaced directly), the query against a table that does not exist
fails with that error, and otherwise yields the distinct region labels. -/
def get_regions_db (tables : List (String × List String))
    (election_name : String) : Except DataError (List String) :=
  match lookup_table tables election_name with
  | none => Except.error DataError.notFound
  | some rows => Except.ok rows.dedup

/-- C7: for every election identifier not present in the backing store,
`get_regions` fails with `NotFoundError`. -/
theorem c7_get_regions_unknown_election
    (tables : List (String × List String)) (election_name : String)
    (h : lookup_table tables election_name = none) :
    get_regions_db tables election_name
      = Except.error DataError.notFound := by
  rw [get_regions_db, h]

/-- C7 witness: a store holding only table "2019" queried for "1900". -/
theorem c7_get_regions_unknown_election_witness :
    lookup_table [("2019", ["North", "South"])] "1900" = none ∧
    get_regions_db [("2019", ["North", "South"])] "1900"
      = Except.error DataError.notFound :=
  ⟨by decide,
    c7_get_regions_unknown_election [("2019", ["North", "South"])] "1900"
      (by decide)⟩

/-! ### The two PR aggregation modes (src/elections/pr.py)

`_calculate_entire_electorate` sorts the seat dict of one whole-election
fetch; `_calculate_by_region` computes one seat dict per region and merges
them with `dict(sum([Counter(region) for region in region_seats],
Counter()))`.  `Counter.__add__` keeps an entry only when its (summed)
count is positive, so zero counts are dropped by the merge. -/

structure RegionData where
  parties : List String
  votes : List (List ℤ)

/-- The data retriever as the PR allocator uses it: `regions` is
`get_regions(...)`, `vote_data region` is `get_vote_data(...)`
with the optional region filter. -/
structure ElectionDataModel where
  regions : List String
  vote_data : Option String → RegionData

/-- Model of `other[elem]` on a Counter: 0 when the key is absent. -/
def counter_get (c : List (String × ℕ)) (k : String) : ℕ :=
  match c.find? (fun kv => kv.1 == k) with
  | none => 0
  | some kv => kv.2

/-- Model of `elem in self` on a Counter. -/
def counter_mem (c : List (String × ℕ)) (k : String) : Bool :=
  (c.find? (fun kv => kv.1 == k)).isSome

/-- Model of `Counter.__add__`: left items with the counts summed, kept when
positive, then right items under fresh keys, kept when positive. -/
def counter_add (c1 c2 : List (String × ℕ)) : List (String × ℕ) :=
  (c1.map (fun kv => (kv.1, kv.2 + counter_get c2 kv.1))).filter
      (fun kv => decide (0 < kv.2))
    ++ c2.filter (fun kv => !(counter_mem c1 kv.1) && decide (0 < kv.2))

/-- Model of `sum(counters, Counter())`: left fold of Counter addition starting
from the empty Counter. -/
def counter_sum (dicts : List (List (String × ℕ))) : List (String × ℕ) :=
  dicts.foldl counter_add []

/-- Model of `ProportionalRepresentation._calculate_entire_electorate`. -/
def calculate_entire_electorate (d : ElectionDataModel) :
    Option (List (String × ℕ)) :=
  match compute_seats_by_pr (d.vote_data none).parties
      (d.vote_data none).votes with
  | none => none
  | some results => some (sort_results results)

/-- Model of `ProportionalRepresentation._calculate_by_region`. -/
def calculate_by_region (d : ElectionDataModel) :
    Option (List (String × ℕ)) :=
  match d.regions.mapM (fun region =>
      compute_seats_by_pr (d.vote_data (some region)).parties
        (d.vote_data (some region)).votes) with
  | none => none
  | some region_seats => some (sort_results (counter_sum region_seats))

theorem counter_add_pos (c1 c2 : List (String × ℕ)) :
    ∀ kv ∈ counter_add c1 c2, 0 < kv.2 := by
  intro kv hkv
  rcases List.mem_append.mp hkv with h | h
  · have h2 := List.of_mem_filter h
    simpa using h2
  · have h2 := List.of_mem_filter h
    simp at h2
    exact h2.2

theorem counter_sum_pos (dicts : List (List (String × ℕ))) :
    ∀ kv ∈ counter_sum dicts, 0 < kv.2 := by
  rw [counter_sum]
  suffices h : ∀ acc : List (String × ℕ), (∀ kv ∈ acc, 0 < kv.2) →
      ∀ kv ∈ dicts.foldl counter_add acc, 0 < kv.2 by
    refine h [] ?_
    intro kv hkv
    exact absurd hkv (List.not_mem_nil kv)
  induction dicts with
  | nil =>
    intro acc hacc
    exact hacc
  | cons c cs ih =>
    intro acc _
    rw [List.foldl_cons]
    exact ih (counter_add acc c) (counter_add_pos acc c)

theorem counter_get_pos_mem (c : List (String × ℕ)) (k : String)
    (h : 0 < counter_get c k) :
    ∃ kv2 ∈ c, kv2.1 = k ∧ 0 < kv2.2 := by
  rw [counter_get] at h
  cases hf : c.find? (fun kv => kv.1 == k) with
  | none =>
    rw [hf] at h
    exact absurd h (lt_irrefl 0)
  | some kv2 =>
    rw [hf] at h
    refine ⟨kv2, List.mem_of_find?_eq_some hf, ?_, h⟩
    have := List.find?_some hf
    simpa using this

theorem counter_add_support (c1 c2 : List (String × ℕ)) :
    ∀ kv ∈ counter_add c1 c2,
      (∃ kv2 ∈ c1, kv2.1 = kv.1 ∧ 0 < kv2.2) ∨
      (∃ kv2 ∈ c2, kv2.1 = kv.1 ∧ 0 < kv2.2) := by
  intro kv hkv
  rcases List.mem_append.mp hkv with h | h
  · rcases List.mem_filter.mp h with ⟨hmem, hpos⟩
    rcases List.mem_map.mp hmem with ⟨kv1, hkv1, rfl⟩
    simp only [decide_eq_true_eq] at hpos
    have hsplit : 0 < kv1.2 ∨ 0 < counter_get c2 kv1.1 := by omega
    rcases hsplit with h1 | h1
    · exact Or.inl ⟨kv1, hkv1, rfl, h1⟩
    · exact Or.inr (counter_get_pos_mem c2 kv1.1 h1)
  · rcases List.mem_filter.mp h with ⟨hmem, hpos⟩
    simp only [Bool.and_eq_true, decide_eq_true_eq] at hpos
    exact Or.inr ⟨kv, hmem, rfl, hpos.2⟩

theorem counter_sum_support (dicts : List (List (String × ℕ))) :
    ∀ kv ∈ counter_sum dicts,
      ∃ c ∈ dicts, ∃ kv2 ∈ c, kv2.1 = kv.1 ∧ 0 < kv2.2 := by
  rw [counter_sum]
  suffices h : ∀ acc : List (String × ℕ),
      (∀ kv ∈ acc, ∃ c ∈ dicts, ∃ kv2 ∈ c, kv2.1 = kv.1 ∧ 0 < kv2.2) →
      ∀ kv ∈ dicts.foldl counter_add acc,
        ∃ c ∈ dicts, ∃ kv2 ∈ c, kv2.1 = kv.1 ∧ 0 < kv2.2 by
    refine h [] ?_
    intro kv hkv
    exact absurd hkv (List.not_mem_nil kv)
  have hgen : ∀ (ds : List (List (String × ℕ))) (P : String → Prop),
      (∀ c ∈ ds, ∀ kv2 ∈ c, 0 < kv2.2 → P kv2.1) →
      ∀ acc : List (String × ℕ), (∀ kv ∈ acc, P kv.1) →
      ∀ kv ∈ ds.foldl counter_add acc, P kv.1 := by
    intro ds P
    induction ds with
    | nil =>
      intro _ acc hacc kv hkv
      exact hacc kv hkv
    | cons c cs ih =>
      intro hds acc hacc kv hkv
      rw [List.foldl_cons] at hkv
      refine ih ?_ (counter_add acc c) ?_ kv hkv
      · intro c2 hc2 kv2 hkv2 hpos
        exact hds c2 (List.mem_cons_of_mem c hc2) kv2 hkv2 hpos
      · intro kv1 hkv1
        rcases counter_add_support acc c kv1 hkv1 with ⟨kv2, hkv2, he, hp⟩ | ⟨kv2, hkv2, he, hp⟩
        · exact he ▸ hacc kv2 hkv2
        · exact he ▸ hds c (List.mem_cons_self c cs) kv2 hkv2 hp
  intro acc hacc
  refine hgen dicts
    (fun k => ∃ c ∈ dicts, ∃ kv2 ∈ c, kv2.1 = k ∧ 0 < kv2.2) ?_ acc hacc
  intro c hc kv2 hkv2 hpos
  exact ⟨c, hc, kv2, hkv2, rfl, hpos⟩

theorem pr_step_length (tl : List ℤ) (st st2 : List ℕ × List (ℚ × ℕ))
    (h : pr_step tl st = some st2) : st2.1.length = st.1.length := by
  rw [pr_step] at h
  cases hm : heap_min st.2 with
  | none =>
    rw [hm] at h
    exact absurd h (by simp)
  | some m =>
    rw [hm] at h
    have h2 := Option.some.inj h
    rw [← h2]
    simp [List.length_set]

theorem pr_loop_length (tl : List ℤ) :
    ∀ (k : ℕ) (st st2 : List ℕ × List (ℚ × ℕ)),
      pr_loop tl k st = some st2 → st2.1.length = st.1.length := by
  intro k
  induction k with
  | zero =>
    intro st st2 h
    rw [pr_loop] at h
    rw [← Option.some.inj h]
  | succ k ih =>
    intro st st2 h
    rw [pr_loop] at h
    cases hs : pr_step tl st with
    | none =>
      rw [hs] at h
      exact absurd h (by simp)
    | some stm =>
      rw [hs] at h
      rw [ih stm st2 h, pr_step_length tl st stm hs]

/-- Whenever `_compute_seats_by_pr` succeeds, the keys of the returned
dict are exactly the fetched party list. -/
theorem compute_seats_keys (parties : List String) (votes : List (List ℤ))
    (res : List (String × ℕ))
    (h : compute_seats_by_pr parties votes = some res) :
    res.map Prod.fst = parties := by
  simp only [compute_seats_by_pr] at h
  cases hl : pr_loop (party_totals parties.length votes) votes.length
      (List.replicate parties.length 0,
       (List.range parties.length).map
         (fun party => ((-(((party_totals parties.length votes).getD party 0
           : ℤ) : ℚ)), party))) with
  | none =>
    rw [hl] at h
    exact absurd h (by simp)
  | some st =>
    rw [hl] at h
    have h2 := Option.some.inj h
    rw [← h2]
    apply List.map_fst_zip
    rw [pr_loop_length _ _ _ _ hl, List.length_replicate]

/-- A concrete retriever: one region, two parties, one constituency where
only party "A" receives a vote. -/
def region_example : ElectionDataModel :=
  { regions := ["R"], vote_data := fun _ => ⟨["A", "B"], [[1, 0]]⟩ }

theorem compute_seats_example :
    compute_seats_by_pr ["A", "B"] [[(1 : ℤ), 0]]
      = some [("A", 1), ("B", 0)] := by
  rw [compute_seats_by_pr_eq ["A", "B"] [[(1 : ℤ), 0]] (by decide)]
  have htl : party_totals (["A", "B"] : List String).length [[(1 : ℤ), 0]]
      = [1, 0] := by decide
  rw [htl]
  show some (["A", "B"].zip (dhondt_rounds [1, 0] 2 1 [0, 0]))
    = some [("A", 1), ("B", 0)]
  have hq0 : dhondt_quotient [1, 0] [0, 0] 0 = 1 := by
    rw [dhondt_quotient]
    norm_num
  have hq1 : dhondt_quotient [1, 0] [0, 0] 1 = 0 := by
    rw [dhondt_quotient]
    norm_num
  have hsel : dhondt_select [1, 0] [0, 0] 2 = 0 := by
    rw [dhondt_select, show List.range 2 = [0, 1] from by decide,
      List.foldl_cons, List.foldl_cons, List.foldl_nil,
      show select_step [1, 0] [0, 0] 0 0 = 0 from by
        rw [select_step, if_neg (lt_irrefl _)],
      select_step, hq0, hq1, if_neg (by norm_num)]
  show some (["A", "B"].zip (dhondt_rounds [1, 0] 2 0
      ([0, 0].set (dhondt_select [1, 0] [0, 0] 2)
        ([0, 0].getD (dhondt_select [1, 0] [0, 0] 2) 0 + 1))))
    = some [("A", 1), ("B", 0)]
  rw [hsel]
  rfl

theorem region_example_by_region :
    calculate_by_region region_example = some [("A", 1)] := by
  have h : compute_seats_by_pr
      (region_example.vote_data (some "R")).parties
      (region_example.vote_data (some "R")).votes
      = some [("A", 1), ("B", 0)] := compute_seats_example
  rw [calculate_by_region, show region_example.regions = ["R"] from rfl,
    List.mapM_cons, h, List.mapM_nil]
  rfl

theorem region_example_entire :
    calculate_entire_electorate region_example
      = some [("A", 1), ("B", 0)] := by
  have h : compute_seats_by_pr (region_example.vote_data none).parties
      (region_example.vote_data none).votes
      = some [("A", 1), ("B", 0)] := compute_seats_example
  rw [calculate_entire_electorate, h]
  rfl

/-- C9: every entry of a by-region result has a positive seat count and a
positively-counted occurrence in some region's seat dict (the Counter
merge drops zero counts), so a party allocated zero seats in every region
is absent; the entire-electorate mode instead returns every fetched party
as a key, zero-seat parties included; and on a concrete retriever the two
modes return key sets ["A"] versus ["A", "B"] for the same data. -/
theorem c9_mode_key_sets (d : ElectionDataModel) (r : List (String × ℕ))
    (hr : calculate_by_region d = some r) :
    (∀ kv ∈ r, 0 < kv.2) ∧
    (∃ region_seats : List (List (String × ℕ)),
      d.regions.mapM (fun region =>
        compute_seats_by_pr (d.vote_data (some region)).parties
          (d.vote_data (some region)).votes) = some region_seats ∧
      ∀ kv ∈ r, ∃ c ∈ region_seats, ∃ kv2 ∈ c, kv2.1 = kv.1 ∧ 0 < kv2.2) ∧
    (∀ (d2 : ElectionDataModel) (r2 : List (String × ℕ)),
      calculate_entire_electorate d2 = some r2 →
        (r2.map Prod.fst).Perm (d2.vote_data none).parties) ∧
    (calculate_by_region region_example = some [("A", 1)] ∧
      calculate_entire_electorate region_example
        = some [("A", 1), ("B", 0)] ∧
      ([(("A" : String), (1 : ℕ))].map Prod.fst = ["A"] ∧
        [(("A" : String), (1 : ℕ)), ("B", 0)].map Prod.fst = ["A", "B"])) := by
  rw [calculate_by_region] at hr
  cases hm : d.regions.mapM (fun region =>
      compute_seats_by_pr (d.vote_data (some region)).parties
        (d.vote_data (some region)).votes) with
  | none =>
    rw [hm] at hr
    exact absurd hr (by simp)
  | some region_seats =>
    rw [hm] at hr
    have hr2 := Option.some.inj hr
    have hmem : ∀ kv ∈ r, kv ∈ counter_sum region_seats := by
      intro kv hkv
      rw [← hr2] at hkv
      exact (sorted_desc_perm _ _).mem_iff.mp hkv
    refine ⟨?_, ⟨region_seats, rfl, ?_⟩, ?_, region_example_by_region,
      region_example_entire, rfl, rfl⟩
    · intro kv hkv
      exact counter_sum_pos region_seats kv (hmem kv hkv)
    · intro kv hkv
      exact counter_sum_support region_seats kv (hmem kv hkv)
    · intro d2 r2 h2
      rw [calculate_entire_electorate] at h2
      cases hc : compute_seats_by_pr (d2.vote_data none).parties
          (d2.vote_data none).votes with
      | none =>
        rw [hc] at h2
        exact absurd h2 (by simp)
      | some results =>
        rw [hc] at h2
        have h3 := Option.some.inj h2
        rw [← h3]
        have hperm := (sorted_desc_perm sort_parties results).map Prod.fst
        rw [compute_seats_keys _ _ _ hc] at hperm
        exact hperm

/-- C9 witness: the theorem applied to the concrete retriever; the
entire-electorate key permutation observed on it. -/
theorem c9_mode_key_sets_witness :
    (([(("A" : String), (1 : ℕ)), ("B", 0)]).map Prod.fst).Perm
      (region_example.vote_data none).parties :=
  (c9_mode_key_sets region_example [("A", 1)]
      region_example_by_region).2.2.1 region_example
    [("A", 1), ("B", 0)] region_example_entire
